import Mathlib

/-!
Verification of the computational kernels of the `cpythonwrapper` library
(`cpp_functions.cpp`) and of its pybind benchmark wrappers
(`pybind_wrapper.cpp`), via a shallow embedding in Lean.

C++ `long long` / `int` values are modelled as `Int`.  All claims in this
development range over inputs for which the C++ arithmetic provably stays
inside the corresponding machine-integer range, so the unbounded model and
the machine semantics coincide there; overflow is noted where relevant.
-/

namespace CppFunctions

/-- Loop body of `sum_of_squares`: `total += (long long)i * i` for
`i = 1 .. k`.  `sosLoop k` is the accumulator after the first `k`
iterations. -/
def sosLoop : Nat → Int
  | 0 => 0
  | k + 1 => sosLoop k + ((k : Int) + 1) * ((k : Int) + 1)

/-- `long long sum_of_squares(int n)`: iterative accumulation of `i*i` for
`i` from 1 to `n`; a non-positive `n` runs the loop zero times. -/
def sum_of_squares (n : Int) : Int := sosLoop n.toNat

/-- `long long sum_of_squares_optimized(int n)`: the closed form
`(ln * (ln + 1) * (2 * ln + 1)) / 6` computed in `long long`; C++ signed
division truncates toward zero, i.e. `Int.tdiv`. -/
def sum_of_squares_optimized (n : Int) : Int :=
  Int.tdiv (n * (n + 1) * (2 * n + 1)) 6

lemma sosLoop_closed (k : Nat) :
    6 * sosLoop k = (k : Int) * ((k : Int) + 1) * (2 * (k : Int) + 1) := by
  induction k with
  | zero => simp [sosLoop]
  | succ k ih =>
    have : ((k : Int) + 1) = ((k + 1 : Nat) : Int) := by push_cast; ring
    rw [sosLoop, mul_add, ih]
    push_cast
    ring

/-- C1: for every `n` in `[0, 10000]` (in fact for every `n ≥ 0`),
`sum_of_squares n = sum_of_squares_optimized n`: the iterative 64-bit
accumulation and the 64-bit closed form `n(n+1)(2n+1)/6` agree exactly.
(For `0 ≤ n ≤ 10000` every intermediate value is below `2^63`, so the
`Int` model is bit-identical to the `long long` computation.) -/
theorem sum_of_squares_eq_optimized (n : Int) (h0 : 0 ≤ n) (h1 : n ≤ 10000) :
    sum_of_squares n = sum_of_squares_optimized n := by
  obtain ⟨m, rfl⟩ := Int.eq_ofNat_of_zero_le h0
  unfold sum_of_squares sum_of_squares_optimized
  have ht : ((m : Int)).toNat = m := Int.toNat_ofNat m
  rw [ht, ← sosLoop_closed m, Int.mul_tdiv_cancel_left _ (by norm_num)]

/-- Witness for C1 at the concrete input `n = 100`. -/
theorem sum_of_squares_eq_optimized_witness :
    (0 : Int) ≤ 100 ∧ (100 : Int) ≤ 10000 ∧
      sum_of_squares 100 = sum_of_squares_optimized 100 :=
  ⟨by norm_num, by norm_num,
    sum_of_squares_eq_optimized 100 (by norm_num) (by norm_num)⟩

/-! ### List helper lemmas (getD over set / replicate) -/

lemma getD_set_self {α : Type} (l : List α) (i : Nat) (a d : α)
    (h : i < l.length) : (l.set i a).getD i d = a := by
  rw [List.getD_eq_getElem?_getD, List.getElem?_set_self h]
  rfl

lemma getD_set_ne {α : Type} (l : List α) {i j : Nat} (a d : α)
    (h : i ≠ j) : (l.set i a).getD j d = l.getD j d := by
  rw [List.getD_eq_getElem?_getD, List.getElem?_set_ne h,
    ← List.getD_eq_getElem?_getD]

lemma getD_replicate {α : Type} (c : Nat) (a d : α) (i : Nat)
    (h : i < c) : (List.replicate c a).getD i d = a := by
  rw [List.getD_eq_getElem?_getD, List.getElem?_replicate]
  simp [h]

/-! ### Fibonacci -/

/-- `long long fibonacci_recursive(int n)`: returns `n` when `n <= 1`
(including every negative `n`), otherwise the sum of the two recursive
calls.  The Lean definition is total on all of `Int`, mirroring the fact
that the C++ recursion terminates on every `int` input. -/
def fibonacci_recursive (n : Int) : Int :=
  if n ≤ 1 then n
  else fibonacci_recursive (n - 1) + fibonacci_recursive (n - 2)
termination_by n.toNat
decreasing_by all_goals omega

/-- `std::vector::resize(newLen, fill)`: truncate to `newLen` if shorter,
else append `fill` up to length `newLen`. -/
def listResize (memo : List Int) (newLen : Nat) (fill : Int) : List Int :=
  memo.take newLen ++ List.replicate (newLen - memo.length) fill

/-- The cache-growth step of `fibonacci_memoized`:
`if (memo.size() <= (size_t)n) memo.resize(n + 1, -1);`.
Note the source performs this *before* the `n <= 1` early return. -/
def fibGrow (n : Nat) (memo : List Int) : List Int :=
  if memo.length ≤ n then listResize memo (n + 1) (-1) else memo

/-- Fuel-indexed body of `long long fibonacci_memoized(int n)` with the
`static std::vector<long long> memo` state passed explicitly; the result
is the returned value paired with the cache after the call.  The fuel
only bounds the recursion depth so that the definition is structural
(hence kernel-computable); `fibMemoGo_irrel` shows any fuel `≥ n` gives
the same function, so `fibonacci_memoized` below is the exact recursion
of the source.  The fuel-0 case can only be reached at `n = 0`, where it
agrees with the source's early return. -/
def fibMemoGo : Nat → Nat → List Int → Int × List Int
  | 0, n, memo => ((n : Int), fibGrow n memo)
  | fuel + 1, n, memo =>
    let memo1 := fibGrow n memo
    if n ≤ 1 then ((n : Int), memo1)
    else if memo1.getD n (-1) ≠ -1 then (memo1.getD n (-1), memo1)
    else
      let p1 := fibMemoGo fuel (n - 1) memo1
      let p2 := fibMemoGo fuel (n - 2) p1.2
      (p1.1 + p2.1, p2.2.set n (p1.1 + p2.1))

/-- `long long fibonacci_memoized(int n)` as a state-passing function:
grow the cache if `memo.size() <= n`, return `n` when `n <= 1`, return a
cached non-sentinel value, else recurse on `n-1` then `n-2` and store the
sum at slot `n`. -/
def fibonacci_memoized (n : Nat) (memo : List Int) : Int × List Int :=
  fibMemoGo n n memo

/-- Any fuel of at least `n` computes the same value and cache: the fuel
is an artifact of the embedding, not of the source recursion. -/
lemma fibMemoGo_irrel : ∀ fuel fuel' n : Nat, ∀ memo : List Int,
    n ≤ fuel → n ≤ fuel' → fibMemoGo fuel n memo = fibMemoGo fuel' n memo := by
  intro fuel
  induction fuel with
  | zero =>
    intro fuel' n memo hf hf'
    interval_cases n
    cases fuel' with
    | zero => rfl
    | succ k => simp [fibMemoGo]
  | succ fuel ih =>
    intro fuel' n memo hf hf'
    cases fuel' with
    | zero =>
      interval_cases n
      simp [fibMemoGo]
    | succ fuel' =>
      by_cases h1 : n ≤ 1
      · simp [fibMemoGo, h1]
      · have hr1 : fibMemoGo fuel (n - 1) (fibGrow n memo)
            = fibMemoGo fuel' (n - 1) (fibGrow n memo) :=
          ih fuel' (n - 1) _ (by omega) (by omega)
        simp only [fibMemoGo, h1, if_false]
        rw [hr1]
        rw [ih fuel' (n - 2) _ (by omega) (by omega)]

/-- The mathematical Fibonacci sequence: `F(0)=0`, `F(1)=1`,
`F(k)=F(k-1)+F(k-2)`. -/
def fibSpec : Nat → Int
  | 0 => 0
  | 1 => 1
  | k + 2 => fibSpec (k + 1) + fibSpec k

/-- The memo-cache invariant: every slot within the cache is either the
unset sentinel `-1` or the exact Fibonacci value of its index. -/
def CacheOK (memo : List Int) : Prop :=
  ∀ i, i < memo.length → memo.getD i (-1) = -1 ∨ memo.getD i (-1) = fibSpec i

/-- Cache states reachable from the initial empty `static` vector by a
sequence of `fibonacci_memoized` calls. -/
inductive Reachable : List Int → Prop
  | init : Reachable []
  | step (n : Nat) (m : List Int) : Reachable m →
      Reachable (fibonacci_memoized n m).2

/-! ### Cache-growth lemmas -/

lemma fibGrow_length_le (n : Nat) (memo : List Int) :
    memo.length ≤ (fibGrow n memo).length := by
  unfold fibGrow listResize
  split
  · rename_i h
    rw [List.take_of_length_le (by omega)]
    simp
  · exact le_refl _

lemma fibGrow_length_gt (n : Nat) (memo : List Int) :
    n < (fibGrow n memo).length := by
  unfold fibGrow listResize
  split
  · rename_i h
    rw [List.take_of_length_le (by omega)]
    simp
    omega
  · omega

lemma fibGrow_getD_old (n : Nat) (memo : List Int) (i : Nat) (d : Int)
    (h : i < memo.length) : (fibGrow n memo).getD i d = memo.getD i d := by
  unfold fibGrow listResize
  split
  · rename_i hle
    rw [List.take_of_length_le (by omega)]
    exact List.getD_append _ _ _ _ h
  · rfl

lemma fibGrow_getD_new (n : Nat) (memo : List Int) (i : Nat)
    (h : memo.length ≤ i) (h2 : i < (fibGrow n memo).length) :
    (fibGrow n memo).getD i (-1) = -1 := by
  unfold fibGrow listResize at h2 ⊢
  by_cases hle : memo.length ≤ n
  · rw [if_pos hle] at h2 ⊢
    rw [List.take_of_length_le (by omega)] at h2 ⊢
    rw [List.getD_append_right _ _ _ _ h]
    have hlen : i < memo.length + (n + 1 - memo.length) := by
      simpa using h2
    exact getD_replicate _ _ _ _ (by omega)
  · rw [if_neg hle] at h2
    omega

lemma cacheOK_fibGrow {memo : List Int} (n : Nat) (h : CacheOK memo) :
    CacheOK (fibGrow n memo) := by
  intro i hi
  rcases lt_or_le i memo.length with hlt | hge
  · rw [fibGrow_getD_old n memo i _ hlt]
    exact h i hlt
  · left
    exact fibGrow_getD_new n memo i hge hi

/-! ### The memoized recursion, unfolded -/

lemma fibonacci_memoized_base (n : Nat) (h : n ≤ 1) (memo : List Int) :
    fibonacci_memoized n memo = ((n : Int), fibGrow n memo) := by
  interval_cases n
  · rfl
  · show fibMemoGo 1 1 memo = _
    simp [fibMemoGo]

lemma fibonacci_memoized_rec (n : Nat) (h : 2 ≤ n) (memo : List Int) :
    fibonacci_memoized n memo =
      if (fibGrow n memo).getD n (-1) ≠ -1 then
        ((fibGrow n memo).getD n (-1), fibGrow n memo)
      else
        ((fibonacci_memoized (n - 1) (fibGrow n memo)).1 +
           (fibonacci_memoized (n - 2)
             (fibonacci_memoized (n - 1) (fibGrow n memo)).2).1,
         ((fibonacci_memoized (n - 2)
             (fibonacci_memoized (n - 1) (fibGrow n memo)).2).2).set n
           ((fibonacci_memoized (n - 1) (fibGrow n memo)).1 +
            (fibonacci_memoized (n - 2)
              (fibonacci_memoized (n - 1) (fibGrow n memo)).2).1)) := by
  obtain ⟨m, rfl⟩ : ∃ m, n = m + 1 := ⟨n - 1, by omega⟩
  show fibMemoGo (m + 1) (m + 1) memo = _
  simp only [fibMemoGo]
  rw [if_neg (by omega : ¬ m + 1 ≤ 1)]
  have e1 : fibMemoGo m (m + 1 - 1) (fibGrow (m + 1) memo)
      = fibonacci_memoized (m + 1 - 1) (fibGrow (m + 1) memo) := by
    unfold fibonacci_memoized
    exact fibMemoGo_irrel m (m + 1 - 1) _ _ (by omega) (by omega)
  have e2 : ∀ mm : List Int, fibMemoGo m (m + 1 - 2) mm
      = fibonacci_memoized (m + 1 - 2) mm := fun mm =>
    fibMemoGo_irrel m (m + 1 - 2) _ mm (by omega) (by omega)
  simp only [show m + 1 - 1 = m from rfl] at e1 ⊢
  rw [e1, e2]

/-! ### The master cache lemma -/

lemma fib_memo_master : ∀ n : Nat, ∀ memo : List Int, CacheOK memo →
    (fibonacci_memoized n memo).1 = fibSpec n ∧
    CacheOK (fibonacci_memoized n memo).2 ∧
    memo.length ≤ (fibonacci_memoized n memo).2.length ∧
    ∀ i, i < memo.length → memo.getD i (-1) ≠ -1 →
      (fibonacci_memoized n memo).2.getD i (-1) = memo.getD i (-1) := by
  intro n
  induction n using Nat.strong_induction_on with
  | _ n ih =>
  intro memo hok
  by_cases h1 : n ≤ 1
  · rw [fibonacci_memoized_base n h1 memo]
    refine ⟨?_, cacheOK_fibGrow n hok, fibGrow_length_le n memo, ?_⟩
    · interval_cases n <;> rfl
    · intro i hi _
      exact fibGrow_getD_old n memo i _ hi
  · rw [fibonacci_memoized_rec n (by omega) memo]
    have hokG : CacheOK (fibGrow n memo) := cacheOK_fibGrow n hok
    by_cases hc : (fibGrow n memo).getD n (-1) = -1
    · -- cache miss: recurse
      rw [if_neg (by simpa using hc)]
      obtain ⟨v1, ok2, len2, pres2⟩ :=
        ih (n - 1) (by omega) (fibGrow n memo) hokG
      obtain ⟨v2, ok3, len3, pres3⟩ :=
        ih (n - 2) (by omega) (fibonacci_memoized (n - 1) (fibGrow n memo)).2 ok2
      obtain ⟨k, rfl⟩ : ∃ k, n = k + 2 := ⟨n - 2, by omega⟩
      have hvn : (fibonacci_memoized (k + 2 - 1) (fibGrow (k + 2) memo)).1 +
          (fibonacci_memoized (k + 2 - 2)
            (fibonacci_memoized (k + 2 - 1) (fibGrow (k + 2) memo)).2).1
          = fibSpec (k + 2) := by
        rw [v1, v2]
        show fibSpec (k + 1) + fibSpec k = _
        rfl
      have hnlt : k + 2 < (fibonacci_memoized (k + 2 - 2)
          (fibonacci_memoized (k + 2 - 1) (fibGrow (k + 2) memo)).2).2.length := by
        have := fibGrow_length_gt (k + 2) memo
        omega
      refine ⟨by simpa using hvn, ?_, ?_, ?_⟩
      · -- invariant after the write at slot n
        intro i hi
        rw [List.length_set] at hi
        by_cases hin : i = k + 2
        · subst hin
          right
          rw [getD_set_self _ _ _ _ hnlt]
          exact hvn.symm ▸ rfl
        · rw [getD_set_ne _ _ _ (fun hh => hin hh.symm)]
          exact ok3 i hi
      · rw [List.length_set]
        have := fibGrow_length_le (k + 2) memo
        omega
      · intro i hi hne
        have hiG : i < (fibGrow (k + 2) memo).length := by
          have := fibGrow_length_le (k + 2) memo
          omega
        have hGi : (fibGrow (k + 2) memo).getD i (-1) = memo.getD i (-1) :=
          fibGrow_getD_old _ memo i _ hi
        have hin : i ≠ k + 2 := by
          intro hh
          subst hh
          rw [hGi] at hc
          exact hne hc
        have h2i : (fibonacci_memoized (k + 2 - 1) (fibGrow (k + 2) memo)).2.getD
            i (-1) = memo.getD i (-1) := by
          rw [pres2 i hiG (by rw [hGi]; exact hne), hGi]
        have h3i : (fibonacci_memoized (k + 2 - 2)
            (fibonacci_memoized (k + 2 - 1) (fibGrow (k + 2) memo)).2).2.getD
            i (-1) = memo.getD i (-1) := by
          rw [pres3 i (by omega) (by rw [h2i]; exact hne), h2i]
        rw [getD_set_ne _ _ _ (fun hh => hin hh.symm), h3i]
    · -- cache hit: value read back is the Fibonacci value
      rw [if_pos (by simpa using hc)]
      have hnlt : n < (fibGrow n memo).length := fibGrow_length_gt n memo
      refine ⟨?_, hokG, fibGrow_length_le n memo, ?_⟩
      · rcases hokG n hnlt with hbad | hgood
        · exact absurd hbad hc
        · exact hgood
      · intro i hi _
        exact fibGrow_getD_old n memo i _ hi

/-- Every reachable cache state satisfies the cache invariant. -/
lemma reachable_cacheOK {memo : List Int} (h : Reachable memo) : CacheOK memo := by
  induction h with
  | init => intro i hi; simp at hi
  | step n m _ ihm => exact (fib_memo_master n m ihm).2.1

/-- The naive recursion computes the mathematical Fibonacci sequence on
every natural-number input. -/
lemma fibonacci_recursive_spec : ∀ n : Nat, fibonacci_recursive (n : Int) = fibSpec n := by
  intro n
  induction n using Nat.strong_induction_on with
  | _ n ih =>
  match n with
  | 0 => rw [fibonacci_recursive]; norm_num [fibSpec]
  | 1 => rw [fibonacci_recursive]; norm_num [fibSpec]
  | k + 2 =>
    rw [fibonacci_recursive]
    rw [if_neg (by push_cast; omega)]
    have e1 : ((k + 2 : Nat) : Int) - 1 = ((k + 1 : Nat) : Int) := by push_cast; ring
    have e2 : ((k + 2 : Nat) : Int) - 2 = ((k : Nat) : Int) := by push_cast; ring
    rw [e1, e2, ih (k + 1) (by omega), ih k (by omega)]
    rfl

/-- C3: for every `n` in `[0, 30]` and every reachable cache state,
`fibonacci_recursive(n) == fibonacci_memoized(n)`, and both equal the
mathematical Fibonacci sequence `F(0)=0, F(1)=1, F(k)=F(k-1)+F(k-2)`. -/
theorem fib_recursive_eq_memoized (n : Nat) (_hn : n ≤ 30)
    (memo : List Int) (hm : Reachable memo) :
    fibonacci_recursive (n : Int) = (fibonacci_memoized n memo).1 ∧
      (fibonacci_memoized n memo).1 = fibSpec n ∧
      fibonacci_recursive (n : Int) = fibSpec n := by
  have h1 := (fib_memo_master n memo (reachable_cacheOK hm)).1
  have h2 := fibonacci_recursive_spec n
  exact ⟨by rw [h1, h2], h1, h2⟩

/-- Witness for C3 at `n = 10` from the empty (initial) cache. -/
theorem fib_recursive_eq_memoized_witness :
    (10 : Nat) ≤ 30 ∧ Reachable [] ∧
      (fibonacci_recursive ((10 : Nat) : Int) = (fibonacci_memoized 10 []).1 ∧
       (fibonacci_memoized 10 []).1 = fibSpec 10 ∧
       fibonacci_recursive ((10 : Nat) : Int) = fibSpec 10) :=
  ⟨by norm_num, Reachable.init,
    fib_recursive_eq_memoized 10 (by norm_num) [] Reachable.init⟩

/-- C4: after any `fibonacci_memoized` call from any reachable cache
state, the cache invariant holds (every slot is `-1` or the exact
Fibonacci value of its index), the cache never shrinks, and every
previously set (non-sentinel) slot keeps its value — growth preserves
all previously computed entries and a set slot is never overwritten. -/
theorem memo_cache_invariant (n : Nat) (memo : List Int) (hm : Reachable memo) :
    CacheOK (fibonacci_memoized n memo).2 ∧
      memo.length ≤ (fibonacci_memoized n memo).2.length ∧
      ∀ i, i < memo.length → memo.getD i (-1) ≠ -1 →
        (fibonacci_memoized n memo).2.getD i (-1) = memo.getD i (-1) := by
  have h := fib_memo_master n memo (reachable_cacheOK hm)
  exact ⟨h.2.1, h.2.2.1, h.2.2.2⟩

/-- Witness for C4: call `fibonacci_memoized 5` from the reachable state
left by `fibonacci_memoized 3` on the initial cache; slot 2 (already set
to `F(2) = 1`) is preserved. -/
theorem memo_cache_invariant_witness :
    Reachable (fibonacci_memoized 3 []).2 ∧
      CacheOK (fibonacci_memoized 5 (fibonacci_memoized 3 []).2).2 ∧
      (fibonacci_memoized 3 []).2.length ≤
        (fibonacci_memoized 5 (fibonacci_memoized 3 []).2).2.length ∧
      (fibonacci_memoized 5 (fibonacci_memoized 3 []).2).2.getD 2 (-1) =
        (fibonacci_memoized 3 []).2.getD 2 (-1) := by
  have hr : Reachable (fibonacci_memoized 3 []).2 :=
    Reachable.step 3 [] Reachable.init
  have h := memo_cache_invariant 5 _ hr
  exact ⟨hr, h.1, h.2.1, h.2.2 2 (by decide) (by decide)⟩

/-- C5, counterexample: calling `fibonacci_memoized 0` on the empty cache
*does* touch the cache — the source resizes the `static` vector *before*
the `n <= 1` early return, so the state after the call (`[-1]`) differs
from the state before (`[]`). -/
theorem fib_memo_zero_grows_cache : (fibonacci_memoized 0 []).2 ≠ [] := by
  decide

/-- C5, amended: for `n ≤ 1` the call returns `n` directly without
reading or writing any cache slot, but the cache may still be *grown*:
the state after the call is exactly `fibGrow n memo` (resize to `n + 1`
sentinels when `memo.size() ≤ n`), the state is unchanged whenever the
cache is already longer than `n`, and every pre-existing slot keeps its
value. -/
theorem fib_memo_low_frame (n : Nat) (hn : n ≤ 1) (memo : List Int) :
    (fibonacci_memoized n memo).1 = (n : Int) ∧
      (fibonacci_memoized n memo).2 = fibGrow n memo ∧
      (n < memo.length → (fibonacci_memoized n memo).2 = memo) ∧
      ∀ i, i < memo.length →
        (fibonacci_memoized n memo).2.getD i (-1) = memo.getD i (-1) := by
  rw [fibonacci_memoized_base n hn memo]
  refine ⟨rfl, rfl, ?_, ?_⟩
  · intro h
    unfold fibGrow
    rw [if_neg (by omega)]
  · intro i hi
    exact fibGrow_getD_old n memo i _ hi

/-- Witness for C5 (amended) at `n = 1` on the cache `[-1, -1, 1]`, which
is long enough, so the call leaves it untouched. -/
theorem fib_memo_low_frame_witness :
    (fibonacci_memoized 1 [-1, -1, 1]).1 = 1 ∧
      (fibonacci_memoized 1 [-1, -1, 1]).2 = [-1, -1, 1] ∧
      (fibonacci_memoized 1 [-1, -1, 1]).2.getD 2 (-1) = 1 := by
  have h := fib_memo_low_frame 1 (by norm_num) [-1, -1, 1]
  refine ⟨h.1, h.2.2.1 (by norm_num), ?_⟩
  rw [h.2.2.2 2 (by norm_num)]
  decide

/-- C10: `fibonacci_recursive` is a total function on `Int` (the Lean
definition terminates on every integer input) and echoes back every
`n ≤ 1` — including every negative `n` — without recursing. -/
theorem fibonacci_recursive_echoes_le_one (n : Int) (h : n ≤ 1) :
    fibonacci_recursive n = n := by
  rw [fibonacci_recursive, if_pos h]

/-- Witness for C10 at the negative input `n = -5`. -/
theorem fibonacci_recursive_echoes_le_one_witness :
    (-5 : Int) ≤ 1 ∧ fibonacci_recursive (-5) = -5 :=
  ⟨by norm_num, fibonacci_recursive_echoes_le_one (-5) (by norm_num)⟩

/-! ### Matrix multiplication -/

/-- The deterministic generator of the left matrix: `matrix_a[i][j] = i + j`. -/
def matA (i j : Nat) : Int := (i : Int) + j

/-- The deterministic generator of the right matrix: `matrix_b[i][j] = i * j + 1`. -/
def matB (i j : Nat) : Int := (i : Int) * j + 1

/-- The materialized `matrix_a` of `matrix_multiplication`. -/
def matrix_a (size : Nat) : List (List Int) :=
  (List.range size).map (fun i => (List.range size).map (fun j => matA i j))

/-- The materialized `matrix_b` of `matrix_multiplication`. -/
def matrix_b (size : Nat) : List (List Int) :=
  (List.range size).map (fun i => (List.range size).map (fun j => matB i j))

/-- The read `matrix_a[i][k]`. -/
def aEntry (size i k : Nat) : Int := ((matrix_a size).getD i []).getD k 0

/-- The read `matrix_b[k][j]`. -/
def bEntry (size k j : Nat) : Int := ((matrix_b size).getD k []).getD j 0

/-- The innermost `j` loop of the multiplication:
`result[i][j] += matrix_a[i][k] * matrix_b[k][j]` for `j = 0 .. m-1`,
acting on row `i` of the result (`f j` is the added product). -/
def jLoop (f : Nat → Int) (m : Nat) (row : List Int) : List Int :=
  (List.range m).foldl (fun r j => r.set j (r.getD j 0 + f j)) row

/-- The middle `k` loop: run the `j` loop for `k = 0 .. m-1`
(`g k j` is the product added at column `j` in pass `k`). -/
def kLoop (g : Nat → Nat → Int) (size m : Nat) (row : List Int) : List Int :=
  (List.range m).foldl (fun r k => jLoop (g k) size r) row

/-- `std::vector<std::vector<int>> matrix_multiplication(int size)`:
generate `matrix_a`, `matrix_b`, start from an all-zero result and run
the `i, k, j` triple loop of the source.  The outer `i` iteration only
ever updates row `i`, so the result is the per-row image of the `k`/`j`
loops. -/
def matrix_multiplication (size : Nat) : List (List Int) :=
  (List.range size).map (fun i =>
    kLoop (fun k j => aEntry size i k * bEntry size k j) size size
      (List.replicate size 0))

/-- The mathematical product entry `(A·B)[i][j] = Σ_k A[i][k] * B[k][j]`. -/
def matmulSpec (size i j : Nat) : Int :=
  ((List.range size).map (fun k => matA i k * matB k j)).sum

lemma getD_map_range {α : Type} (f : Nat → α) (n i : Nat) (d : α)
    (h : i < n) : ((List.range n).map f).getD i d = f i := by
  rw [List.getD_eq_getElem?_getD, List.getElem?_map, List.getElem?_range h]
  rfl

lemma aEntry_eq (size i k : Nat) (hi : i < size) (hk : k < size) :
    aEntry size i k = matA i k := by
  unfold aEntry matrix_a
  rw [getD_map_range _ _ _ _ hi, getD_map_range _ _ _ _ hk]

lemma bEntry_eq (size k j : Nat) (hk : k < size) (hj : j < size) :
    bEntry size k j = matB k j := by
  unfold bEntry matrix_b
  rw [getD_map_range _ _ _ _ hk, getD_map_range _ _ _ _ hj]

lemma jLoop_succ (f : Nat → Int) (m : Nat) (row : List Int) :
    jLoop f (m + 1) row =
      (jLoop f m row).set m ((jLoop f m row).getD m 0 + f m) := by
  unfold jLoop
  rw [List.range_succ, List.foldl_append]
  rfl

lemma jLoop_length (f : Nat → Int) :
    ∀ (m : Nat) (row : List Int), (jLoop f m row).length = row.length := by
  intro m
  induction m with
  | zero => intro row; rfl
  | succ m ih => intro row; rw [jLoop_succ, List.length_set, ih]

lemma jLoop_getD (f : Nat → Int) :
    ∀ (m : Nat) (row : List Int) (j0 : Nat), j0 < row.length →
      (jLoop f m row).getD j0 0 =
        row.getD j0 0 + (if j0 < m then f j0 else 0) := by
  intro m
  induction m with
  | zero =>
    intro row j0 _
    simp [jLoop]
  | succ m ih =>
    intro row j0 hj0
    rw [jLoop_succ]
    by_cases hjm : j0 = m
    · subst hjm
      rw [getD_set_self _ _ _ _ (by rw [jLoop_length]; omega),
        ih row j0 hj0]
      simp
    · rw [getD_set_ne _ _ _ (fun hh => hjm hh.symm), ih row j0 hj0]
      by_cases hlt : j0 < m
      · rw [if_pos hlt, if_pos (by omega)]
      · rw [if_neg hlt, if_neg (by omega)]

lemma kLoop_succ (g : Nat → Nat → Int) (size m : Nat) (row : List Int) :
    kLoop g size (m + 1) row = jLoop (g m) size (kLoop g size m row) := by
  unfold kLoop
  rw [List.range_succ, List.foldl_append]
  rfl

lemma kLoop_length (g : Nat → Nat → Int) (size : Nat) :
    ∀ (m : Nat) (row : List Int), (kLoop g size m row).length = row.length := by
  intro m
  induction m with
  | zero => intro row; rfl
  | succ m ih => intro row; rw [kLoop_succ, jLoop_length, ih]

lemma kLoop_getD (g : Nat → Nat → Int) (size : Nat) :
    ∀ (m : Nat) (row : List Int) (j0 : Nat), row.length = size → j0 < size →
      (kLoop g size m row).getD j0 0 =
        row.getD j0 0 + ((List.range m).map (fun k => g k j0)).sum := by
  intro m
  induction m with
  | zero =>
    intro row j0 _ _
    simp [kLoop]
  | succ m ih =>
    intro row j0 hlen hj0
    rw [kLoop_succ,
      jLoop_getD _ size _ j0 (by rw [kLoop_length]; omega),
      ih row j0 hlen hj0, if_pos hj0, List.range_succ, List.map_append,
      List.sum_append]
    simp
    ring

/-- C6: `matrix_multiplication 3` has the oracle row 0 `[3, 8, 13]`, and
for every `size` each entry of `matrix_multiplication size` equals the
mathematical product entry `Σ_k A[i][k]·B[k][j]` of the generated
matrices `A[i][j] = i + j`, `B[i][j] = i·j + 1` — so the `i, k, j` loop
order of the source does not change the result relative to the
mathematical product.  (`int` arithmetic is modelled without overflow;
for `size = 3` all values are tiny, so the model is exact there.) -/
theorem matrix_multiplication_correct :
    (matrix_multiplication 3).getD 0 [] = [3, 8, 13] ∧
      ∀ size i j : Nat, i < size → j < size →
        ((matrix_multiplication size).getD i []).getD j 0 = matmulSpec size i j := by
  constructor
  · decide
  · intro size i j hi hj
    unfold matrix_multiplication
    rw [getD_map_range _ _ _ _ hi,
      kLoop_getD _ _ size _ j (by simp) hj,
      getD_replicate _ _ _ _ hj]
    unfold matmulSpec
    have hcong : ∀ k ∈ List.range size,
        aEntry size i k * bEntry size k j = matA i k * matB k j := by
      intro k hk
      rw [List.mem_range] at hk
      rw [aEntry_eq size i k hi hk, bEntry_eq size k j hk hj]
    rw [List.map_congr_left hcong]
    ring

/-- Witness for C6 at `size = 2, i = 0, j = 1`. -/
theorem matrix_multiplication_correct_witness :
    (matrix_multiplication 3).getD 0 [] = [3, 8, 13] ∧
      ((matrix_multiplication 2).getD 0 []).getD 1 0 = matmulSpec 2 0 1 :=
  ⟨matrix_multiplication_correct.1,
    matrix_multiplication_correct.2 2 0 1 (by norm_num) (by norm_num)⟩

/-! ### Benchmark wrappers -/

lemma foldl_const_of_ne_nil {α β : Type} (c : α) :
    ∀ (l : List β) (init : α), l ≠ [] → l.foldl (fun _ _ => c) init = c := by
  intro l
  induction l with
  | nil => intro init h; exact absurd rfl h
  | cons x xs ih =>
    intro init _
    rw [List.foldl_cons]
    cases hxs : xs with
    | nil => rfl
    | cons y ys => exact hxs ▸ ih c (by simp [hxs])

/-- The kernel-result component of `benchmark_sum_of_squares(n, iterations)`:
`long long result = 0;` then `result = sum_of_squares(n)` on each of the
`iterations` loop passes; the pair returned by the wrapper carries this
value as its first component (the second is wall-clock time, outside the
model). -/
def benchmark_sum_of_squares_result (n : Int) (iterations : Int) : Int :=
  (List.range iterations.toNat).foldl (fun _ _ => sum_of_squares n) 0

/-- C7: for every `n ≥ 0` and `iterations ≥ 1` the result component of
`benchmark_sum_of_squares(n, iterations)` equals `sum_of_squares n`, and
it is the same value for every positive iteration count. -/
theorem benchmark_sum_of_squares_correct (n : Int) (_hn : 0 ≤ n)
    (its : Int) (hits : 1 ≤ its) :
    benchmark_sum_of_squares_result n its = sum_of_squares n ∧
      ∀ its' : Int, 1 ≤ its' →
        benchmark_sum_of_squares_result n its
          = benchmark_sum_of_squares_result n its' := by
  have hval : ∀ j : Int, 1 ≤ j →
      benchmark_sum_of_squares_result n j = sum_of_squares n := by
    intro j hj
    unfold benchmark_sum_of_squares_result
    refine foldl_const_of_ne_nil _ _ _ ?_
    rw [ne_eq, List.range_eq_nil]
    omega
  exact ⟨hval its hits, fun its' hits' => by rw [hval its hits, hval its' hits']⟩

/-- Witness for C7: `benchmark_sum_of_squares(100, 5)` returns
`sum_of_squares 100`, and iteration counts 5 and 7 agree. -/
theorem benchmark_sum_of_squares_correct_witness :
    benchmark_sum_of_squares_result 100 5 = sum_of_squares 100 ∧
      benchmark_sum_of_squares_result 100 5 = benchmark_sum_of_squares_result 100 7 :=
  ⟨(benchmark_sum_of_squares_correct 100 (by norm_num) 5 (by norm_num)).1,
    (benchmark_sum_of_squares_correct 100 (by norm_num) 5 (by norm_num)).2 7
      (by norm_num)⟩

/-- The result component of `benchmark_matrix_mult(size, iterations)`:
`std::vector<std::vector<int>> result;` is overwritten with
`matrix_multiplication(size)` on each loop pass, and the wrapper returns
`result[0][0]` — a single sampled element, not the full matrix. -/
def benchmark_matrix_mult_result (size : Nat) (iterations : Int) : Int :=
  (((List.range iterations.toNat).foldl
      (fun _ _ => matrix_multiplication size) []).getD 0 []).getD 0 0

/-- C8: for every `size ≥ 1` and `iterations ≥ 1`, the result component
of `benchmark_matrix_mult(size, iterations)` is exactly the element at
row 0, column 0 of `matrix_multiplication size`. -/
theorem benchmark_matrix_mult_samples (size : Nat) (_hs : 1 ≤ size)
    (its : Int) (hits : 1 ≤ its) :
    benchmark_matrix_mult_result size its
      = ((matrix_multiplication size).getD 0 []).getD 0 0 := by
  unfold benchmark_matrix_mult_result
  rw [foldl_const_of_ne_nil _ _ _ (by rw [ne_eq, List.range_eq_nil]; omega)]

/-- Witness for C8 at `size = 2, iterations = 3`. -/
theorem benchmark_matrix_mult_samples_witness :
    benchmark_matrix_mult_result 2 3
      = ((matrix_multiplication 2).getD 0 []).getD 0 0 :=
  benchmark_matrix_mult_samples 2 (by norm_num) 3 (by norm_num)

/-- The divisor of the average-duration computation shared by all four
benchmark wrappers: `duration.count() / (1e9 * iterations)`.  The value
`1e9 * iterations` is an integer scaled exactly into `double` for every
`int` iteration count, so its zeroness is faithfully modelled over `Int`
(the floating-point division itself is outside the model). -/
def benchmark_avg_divisor (iterations : Int) : Int := 1000000000 * iterations

/-- C9: the average-duration divisor `1e9 * iterations` is zero exactly
when `iterations = 0`; under the precondition `iterations ≥ 1` it is
nonzero, so the division is well-defined, while `iterations = 0` divides
by zero. -/
theorem benchmark_avg_divisor_zero_iff (its : Int) :
    (benchmark_avg_divisor its = 0 ↔ its = 0) ∧
      (1 ≤ its → benchmark_avg_divisor its ≠ 0) := by
  constructor
  · constructor
    · intro h
      rcases mul_eq_zero.mp h with h9 | h0
      · exact absurd h9 (by norm_num)
      · exact h0
    · intro h
      rw [h]
      decide
  · intro h hz
    rcases mul_eq_zero.mp hz with h9 | h0
    · exact absurd h9 (by norm_num)
    · omega

/-- Witness for C9 at `iterations = 0` and `iterations = 1`. -/
theorem benchmark_avg_divisor_zero_iff_witness :
    benchmark_avg_divisor 0 = 0 ∧ benchmark_avg_divisor 1 ≠ 0 :=
  ⟨(benchmark_avg_divisor_zero_iff 0).1.2 rfl,
    (benchmark_avg_divisor_zero_iff 1).2 (by norm_num)⟩

/-! ### Prime counting: trial division -/

/-- The inner loop of `int prime_count(int limit)`: `num` is prime iff no
`i` in `[2, sqrt_num]` divides it, where
`sqrt_num = (int)std::sqrt(num)`.  For every `num` in the claimed range
the correctly rounded `double` square root truncates to exactly
`Nat.sqrt num`, which is how the bound is modelled. -/
def is_prime_trial (num : Nat) : Bool :=
  (List.range' 2 (Nat.sqrt num - 1)).all (fun i => num % i != 0)

/-- `int prime_count(int limit)`: 0 for `limit < 2`, else the number of
`num` in `[2, limit]` passing trial division. -/
def prime_count (limit : Int) : Int :=
  if limit < 2 then 0
  else ((List.range' 2 (limit.toNat - 1)).filter is_prime_trial).length

lemma mem_range'_iff (s n m : Nat) :
    m ∈ List.range' s n ↔ s ≤ m ∧ m < s + n := by
  rw [List.mem_range']
  constructor
  · rintro ⟨i, hi, rfl⟩
    omega
  · rintro ⟨h1, h2⟩
    exact ⟨m - s, by omega, by omega⟩

lemma is_prime_trial_iff (num : Nat) (h : 2 ≤ num) :
    is_prime_trial num = true ↔ num.Prime := by
  unfold is_prime_trial
  rw [List.all_eq_true]
  have hs1 : 1 ≤ Nat.sqrt num := by
    have := Nat.sqrt_le_sqrt (show 1 ≤ num by omega)
    simpa using this
  constructor
  · intro hall
    rw [Nat.prime_def_le_sqrt]
    refine ⟨h, fun m hm hms hdvd => ?_⟩
    have hmem : m ∈ List.range' 2 (Nat.sqrt num - 1) := by
      rw [mem_range'_iff]
      omega
    have hne := (bne_iff_ne (a := num % m) (b := 0)).mp (hall m hmem)
    exact hne (Nat.dvd_iff_mod_eq_zero.mp hdvd)
  · intro hp i hi
    rw [mem_range'_iff] at hi
    rw [bne_iff_ne]
    intro hmod
    exact (Nat.prime_def_le_sqrt.mp hp).2 i (by omega) (by omega)
      (Nat.dvd_iff_mod_eq_zero.mpr hmod)

/-! ### Prime counting: Sieve of Eratosthenes -/

/-- Inner marking loop of `prime_count_optimized`, fuel-indexed:
`for (int j = i*i; j <= limit; j += i) is_prime[j] = false;` with
`i = d + 2`.  The fuel only bounds the number of passes; any fuel of at
least `limit + 1 - j` computes the loop exactly (`markGo_irrel`), and the
fuel-0 case coincides with a failed loop guard there. -/
def markGo : Nat → Nat → Nat → Nat → List Bool → List Bool
  | 0, _, _, _, isp => isp
  | fuel + 1, limit, d, j, isp =>
    if j ≤ limit then markGo fuel limit d (j + (d + 2)) (isp.set j false)
    else isp

/-- The inner marking loop from start index `j` with step `i = d + 2`. -/
def markMultiples (limit d j : Nat) (isp : List Bool) : List Bool :=
  markGo (limit + 1 - j) limit d j isp

/-- Outer loop of `prime_count_optimized`, fuel-indexed:
`for (int i = 2; i * i <= limit; ++i) if (is_prime[i]) { mark }` with
`i = d + 2`.  Any fuel of at least `limit + 1 - d` computes the loop
exactly (`outerGo_irrel`); the fuel-0 case coincides with a failed loop
guard there. -/
def outerGo : Nat → Nat → Nat → List Bool → List Bool
  | 0, _, _, isp => isp
  | fuel + 1, limit, d, isp =>
    if (d + 2) * (d + 2) ≤ limit then
      outerGo fuel limit (d + 1)
        (if isp.getD (d + 2) true then
          markMultiples limit d ((d + 2) * (d + 2)) isp
        else isp)
    else isp

/-- The full sieve loop starting at candidate `d + 2`. -/
def sieveOuter (limit d : Nat) (isp : List Bool) : List Bool :=
  outerGo (limit + 1 - d) limit d isp

/-- The initial sieve array: `std::vector<bool> is_prime(limit + 1, true);
is_prime[0] = is_prime[1] = false;`. -/
def sieveInit (L : Nat) : List Bool :=
  ((List.replicate (L + 1) true).set 0 false).set 1 false

/-- `int prime_count_optimized(int limit)`: 0 for `limit < 2`, else run
the sieve and count the `i` in `[2, limit]` still marked prime. -/
def prime_count_optimized (limit : Int) : Int :=
  if limit < 2 then 0
  else ((List.range' 2 (limit.toNat - 1)).filter
    (fun i => (sieveOuter limit.toNat 0 (sieveInit limit.toNat)).getD i true)).length

lemma markGo_succ (fuel limit d j : Nat) (isp : List Bool) :
    markGo (fuel + 1) limit d j isp =
      if j ≤ limit then markGo fuel limit d (j + (d + 2)) (isp.set j false)
      else isp := rfl

lemma outerGo_succ (fuel limit d : Nat) (isp : List Bool) :
    outerGo (fuel + 1) limit d isp =
      if (d + 2) * (d + 2) ≤ limit then
        outerGo fuel limit (d + 1)
          (if isp.getD (d + 2) true then
            markMultiples limit d ((d + 2) * (d + 2)) isp
          else isp)
      else isp := rfl

lemma outer_guard_false_of_large {limit d : Nat} (h : limit < d + 2) :
    ¬ (d + 2) * (d + 2) ≤ limit := by
  intro hg
  have := Nat.le_mul_of_pos_left (d + 2) (show 0 < d + 2 by omega)
  omega

lemma markGo_irrel : ∀ fuel fuel' limit d j : Nat, ∀ isp : List Bool,
    limit + 1 - j ≤ fuel → limit + 1 - j ≤ fuel' →
    markGo fuel limit d j isp = markGo fuel' limit d j isp := by
  intro fuel
  induction fuel with
  | zero =>
    intro fuel' limit d j isp hf hf'
    cases fuel' with
    | zero => rfl
    | succ k =>
      show isp = _
      rw [markGo_succ, if_neg (by omega)]
  | succ fuel ih =>
    intro fuel' limit d j isp hf hf'
    cases fuel' with
    | zero =>
      show _ = isp
      rw [markGo_succ, if_neg (by omega)]
    | succ k =>
      rw [markGo_succ, markGo_succ]
      by_cases hj : j ≤ limit
      · rw [if_pos hj, if_pos hj]
        exact ih k limit d (j + (d + 2)) _ (by omega) (by omega)
      · rw [if_neg hj, if_neg hj]

lemma outerGo_irrel : ∀ fuel fuel' limit d : Nat, ∀ isp : List Bool,
    limit + 1 - d ≤ fuel → limit + 1 - d ≤ fuel' →
    outerGo fuel limit d isp = outerGo fuel' limit d isp := by
  intro fuel
  induction fuel with
  | zero =>
    intro fuel' limit d isp hf hf'
    cases fuel' with
    | zero => rfl
    | succ k =>
      show isp = _
      rw [outerGo_succ, if_neg (outer_guard_false_of_large (by omega))]
  | succ fuel ih =>
    intro fuel' limit d isp hf hf'
    cases fuel' with
    | zero =>
      show _ = isp
      rw [outerGo_succ, if_neg (outer_guard_false_of_large (by omega))]
    | succ k =>
      rw [outerGo_succ, outerGo_succ]
      by_cases hg : (d + 2) * (d + 2) ≤ limit
      · rw [if_pos hg, if_pos hg]
        have hd : d + 2 ≤ limit :=
          le_trans (Nat.le_mul_of_pos_left (d + 2) (show 0 < d + 2 by omega)) hg
        exact ih k limit (d + 1) _ (by omega) (by omega)
      · rw [if_neg hg, if_neg hg]

lemma markGo_length : ∀ fuel limit d j : Nat, ∀ isp : List Bool,
    (markGo fuel limit d j isp).length = isp.length := by
  intro fuel
  induction fuel with
  | zero => intro limit d j isp; rfl
  | succ fuel ih =>
    intro limit d j isp
    rw [markGo_succ]
    by_cases hj : j ≤ limit
    · rw [if_pos hj, ih, List.length_set]
    · rw [if_neg hj]

/-- What the inner marking loop does to each slot: slot `m` is `false`
afterwards iff it was visited (i.e. `m` runs from `j` in steps of
`d + 2` without passing `limit`) or it was already `false`. -/
lemma markGo_getD_false : ∀ fuel limit d j : Nat, ∀ isp : List Bool, ∀ m : Nat,
    limit + 1 - j ≤ fuel → limit < isp.length →
    ((markGo fuel limit d j isp).getD m true = false ↔
      (j ≤ m ∧ m ≤ limit ∧ ∃ t, m = j + t * (d + 2)) ∨
        isp.getD m true = false) := by
  intro fuel
  induction fuel with
  | zero =>
    intro limit d j isp m hf _
    show isp.getD m true = false ↔ _
    constructor
    · intro h
      exact Or.inr h
    · rintro (⟨h1, h2, -⟩ | h)
      · omega
      · exact h
  | succ fuel ih =>
    intro limit d j isp m hf hlen
    rw [markGo_succ]
    by_cases hj : j ≤ limit
    · rw [if_pos hj,
        ih limit d (j + (d + 2)) _ m (by omega) (by rw [List.length_set]; omega)]
      by_cases hm : m = j
      · subst hm
        have hset : (isp.set m false).getD m true = false :=
          getD_set_self _ _ _ _ (by omega)
        constructor
        · intro _
          exact Or.inl ⟨le_refl m, hj, 0, by simp⟩
        · intro _
          exact Or.inr hset
      · rw [getD_set_ne _ _ _ (fun hh => hm hh.symm)]
        constructor
        · rintro (⟨h1, h2, t, ht⟩ | h)
          · refine Or.inl ⟨by omega, h2, t + 1, ?_⟩
            rw [ht]
            ring
          · exact Or.inr h
        · rintro (⟨h1, h2, t, ht⟩ | h)
          · cases t with
            | zero => exact absurd (by simpa using ht) hm
            | succ t =>
              refine Or.inl ⟨?_, h2, t, ?_⟩
              · have hexp : m = j + (d + 2) + t * (d + 2) := by
                  rw [ht]
                  ring
                omega
              · rw [ht]
                ring
          · exact Or.inr h
    · rw [if_neg hj]
      constructor
      · intro h
        exact Or.inr h
      · rintro (⟨h1, h2, -⟩ | h)
        · omega
        · exact h

/-- `m` has a proper divisor `p` with `2 ≤ p < c` and `p² ≤ m`: exactly
the numbers the sieve has crossed out after processing all candidates
below `c`. -/
def markedBelow (c m : Nat) : Prop :=
  ∃ p, 2 ≤ p ∧ p < c ∧ p ∣ m ∧ p * p ≤ m

/-- Invariant of the outer sieve loop: if on entry to candidate `d + 2`
the crossed-out slots are exactly `{0, 1}` and the `markedBelow (d + 2)`
numbers, then on exit the crossed-out slots are exactly `{0, 1}` and the
numbers with some divisor `p ≥ 2`, `p² ≤ m`. -/
lemma outerGo_inv : ∀ fuel limit d : Nat, ∀ isp : List Bool,
    limit + 1 - d ≤ fuel → isp.length = limit + 1 →
    (∀ m, m ≤ limit → (isp.getD m true = false ↔ m < 2 ∨ markedBelow (d + 2) m)) →
    ∀ m, m ≤ limit →
      ((outerGo fuel limit d isp).getD m true = false ↔
        m < 2 ∨ ∃ p, 2 ≤ p ∧ p ∣ m ∧ p * p ≤ m) := by
  intro fuel
  induction fuel with
  | zero =>
    intro limit d isp hf hlen hinv m hm
    show isp.getD m true = false ↔ _
    rw [hinv m hm]
    constructor
    · rintro (h2 | ⟨p, hp2, hpd, hdvd, hsq⟩)
      · exact Or.inl h2
      · exact Or.inr ⟨p, hp2, hdvd, hsq⟩
    · rintro (h2 | ⟨p, hp2, hdvd, hsq⟩)
      · exact Or.inl h2
      · refine Or.inr ⟨p, hp2, ?_, hdvd, hsq⟩
        have hpp : p ≤ p * p := Nat.le_mul_of_pos_left p (by omega)
        omega
  | succ fuel ih =>
    intro fuel0 d isp hf hlen hinv m hm
    rw [outerGo_succ]
    by_cases hg : (d + 2) * (d + 2) ≤ fuel0
    · rw [if_pos hg]
      have hd2 : d + 2 ≤ fuel0 :=
        le_trans (Nat.le_mul_of_pos_left (d + 2) (by omega)) hg
      have hlen' : (if isp.getD (d + 2) true then
          markMultiples fuel0 d ((d + 2) * (d + 2)) isp else isp).length
          = fuel0 + 1 := by
        by_cases hb : isp.getD (d + 2) true = true
        · rw [if_pos hb]
          unfold markMultiples
          rw [markGo_length, hlen]
        · rw [if_neg hb]
          exact hlen
      refine ih fuel0 (d + 1) _ (by omega) hlen' ?_ m hm
      intro m1 hm1
      by_cases hb : isp.getD (d + 2) true = true
      · -- candidate d + 2 is still unmarked, hence has no factor below it
        have hcand : ¬ (d + 2 < 2 ∨ markedBelow (d + 2) (d + 2)) := by
          rw [← hinv (d + 2) hd2, hb]
          simp
        rw [if_pos hb]
        unfold markMultiples
        rw [markGo_getD_false _ fuel0 d _ isp m1 (by omega) (by omega),
          hinv m1 hm1]
        constructor
        · rintro (⟨hsq, hml, t, ht⟩ | (h2 | ⟨p, hp2, hpd, hdvd, hpsq⟩))
          · refine Or.inr ⟨d + 2, by omega, by omega,
              ⟨d + 2 + t, by rw [ht]; ring⟩, hsq⟩
          · exact Or.inl h2
          · exact Or.inr ⟨p, hp2, by omega, hdvd, hpsq⟩
        · rintro (h2 | ⟨p, hp2, hpd, hdvd, hpsq⟩)
          · exact Or.inr (Or.inl h2)
          · by_cases hpd2 : p < d + 2
            · exact Or.inr (Or.inr ⟨p, hp2, hpd2, hdvd, hpsq⟩)
            · have hpe : p = d + 2 := by omega
              subst hpe
              obtain ⟨s, hs⟩ := hdvd
              have hps : d + 2 ≤ s := by
                by_contra hlt
                push_neg at hlt
                have hmul : (d + 2) * s < (d + 2) * (d + 2) := by
                  nlinarith
                omega
              obtain ⟨u, hu⟩ := Nat.exists_eq_add_of_le hps
              refine Or.inl ⟨hpsq, hm1, u, ?_⟩
              rw [hs, hu]
              ring
      · -- candidate d + 2 is already crossed out: it has a factor below it,
        -- so its multiples are already covered
        have hcand : d + 2 < 2 ∨ markedBelow (d + 2) (d + 2) := by
          rw [← hinv (d + 2) hd2]
          cases hbv : isp.getD (d + 2) true
          · rfl
          · exact absurd hbv hb
        have hcand2 : markedBelow (d + 2) (d + 2) := by
          rcases hcand with h | h
          · omega
          · exact h
        rw [if_neg hb, hinv m1 hm1]
        constructor
        · rintro (h2 | ⟨p, hp2, hpd, hdvd, hpsq⟩)
          · exact Or.inl h2
          · exact Or.inr ⟨p, hp2, by omega, hdvd, hpsq⟩
        · rintro (h2 | ⟨p, hp2, hpd, hdvd, hpsq⟩)
          · exact Or.inl h2
          · by_cases hpd2 : p < d + 2
            · exact Or.inr ⟨p, hp2, hpd2, hdvd, hpsq⟩
            · have hpe : p = d + 2 := by omega
              subst hpe
              obtain ⟨q, hq2, hqd, hqdvd, hqsq⟩ := hcand2
              have hqm : q ∣ m1 := dvd_trans hqdvd hdvd
              have hpp : d + 2 ≤ (d + 2) * (d + 2) :=
                Nat.le_mul_of_pos_left (d + 2) (by omega)
              exact Or.inr ⟨q, hq2, by omega, hqm, by omega⟩
    · rw [if_neg hg, hinv m hm]
      constructor
      · rintro (h2 | ⟨p, hp2, hpd, hdvd, hsq⟩)
        · exact Or.inl h2
        · exact Or.inr ⟨p, hp2, hdvd, hsq⟩
      · rintro (h2 | ⟨p, hp2, hdvd, hsq⟩)
        · exact Or.inl h2
        · refine Or.inr ⟨p, hp2, ?_, hdvd, hsq⟩
          by_contra hge
          push_neg at hge
          have : (d + 2) * (d + 2) ≤ p * p := Nat.mul_le_mul hge hge
          omega

lemma sieveInit_inv (L : Nat) (hL : 1 ≤ L) : ∀ m, m ≤ L →
    ((sieveInit L).getD m true = false ↔ m < 2 ∨ markedBelow 2 m) := by
  intro m hm
  unfold sieveInit
  match m with
  | 0 =>
    rw [getD_set_ne _ _ _ (by omega),
      getD_set_self _ _ _ _ (by rw [List.length_replicate]; omega)]
    simp
  | 1 =>
    rw [getD_set_self _ _ _ _
      (by rw [List.length_set, List.length_replicate]; omega)]
    simp
  | m + 2 =>
    rw [getD_set_ne _ _ _ (by omega), getD_set_ne _ _ _ (by omega),
      getD_replicate _ _ _ _ (by omega)]
    simp only [markedBelow]
    constructor
    · intro h
      exact absurd h (by simp)
    · rintro ((h2 : m + 2 < 2) | ⟨p, hp2, hplt, -, -⟩)
      · omega
      · omega

/-- Having no divisor `p ≥ 2` with `p² ≤ m` is exactly primality, for
`m ≥ 2`. -/
lemma no_small_factor_iff_prime (m : Nat) (h2 : 2 ≤ m) :
    (¬ ∃ p, 2 ≤ p ∧ p ∣ m ∧ p * p ≤ m) ↔ m.Prime := by
  constructor
  · intro h
    rw [Nat.prime_def_le_sqrt]
    exact ⟨h2, fun q hq2 hqs hdvd => h ⟨q, hq2, hdvd, Nat.le_sqrt.mp hqs⟩⟩
  · rintro hp ⟨p, hp2, hdvd, hsq⟩
    exact (Nat.prime_def_le_sqrt.mp hp).2 p hp2 (Nat.le_sqrt.mpr hsq) hdvd

/-- The finished sieve keeps exactly the primes in `[2, L]` marked `true`. -/
lemma sieve_prime_iff (L : Nat) (hL : 2 ≤ L) (m : Nat)
    (h2 : 2 ≤ m) (hm : m ≤ L) :
    ((sieveOuter L 0 (sieveInit L)).getD m true = true ↔ m.Prime) := by
  have hinv := outerGo_inv (L + 1 - 0) L 0 (sieveInit L) (le_refl _)
    (by unfold sieveInit
        rw [List.length_set, List.length_set, List.length_replicate])
    (sieveInit_inv L (by omega)) m hm
  show (outerGo (L + 1 - 0) L 0 (sieveInit L)).getD m true = true ↔ _
  rw [← no_small_factor_iff_prime m h2]
  constructor
  · intro ht hex
    have hfalse := hinv.mpr (Or.inr hex)
    rw [ht] at hfalse
    simp at hfalse
  · intro hno
    cases hb : (outerGo (L + 1 - 0) L 0 (sieveInit L)).getD m true
    · rcases hinv.mp hb with hlt | hex
      · omega
      · exact absurd hex hno
    · rfl

/-- C2: for every `limit` in `[0, 5000]`, trial division and the Sieve of
Eratosthenes return the same prime count, and both return 0 when
`limit < 2`.  (Both loops stay far inside `int` range there, and
`(int)std::sqrt(num)` is exactly `⌊√num⌋` for the range involved.) -/
theorem prime_count_eq_optimized (limit : Int) (h0 : 0 ≤ limit)
    (h1 : limit ≤ 5000) :
    prime_count limit = prime_count_optimized limit ∧
      (limit < 2 → prime_count limit = 0 ∧ prime_count_optimized limit = 0) := by
  constructor
  · by_cases hlt : limit < 2
    · unfold prime_count prime_count_optimized
      rw [if_pos hlt, if_pos hlt]
    · unfold prime_count prime_count_optimized
      rw [if_neg hlt, if_neg hlt]
      have hL2 : 2 ≤ limit.toNat := by omega
      have hfeq : (List.range' 2 (limit.toNat - 1)).filter is_prime_trial
          = (List.range' 2 (limit.toNat - 1)).filter
              (fun i => (sieveOuter limit.toNat 0 (sieveInit limit.toNat)).getD
                i true) := by
        apply List.filter_congr
        intro i hi
        rw [mem_range'_iff] at hi
        have hi2 : 2 ≤ i := hi.1
        have hiL : i ≤ limit.toNat := by omega
        have htr := is_prime_trial_iff i hi2
        have hsv := sieve_prime_iff limit.toNat hL2 i hi2 hiL
        cases hbt : is_prime_trial i
        · cases hb : (sieveOuter limit.toNat 0
              (sieveInit limit.toNat)).getD i true
          · rfl
          · rw [hbt] at htr
            rw [hb] at hsv
            exact absurd (hsv.mp rfl) (fun hp => by simpa using htr.mpr hp)
        · cases hb : (sieveOuter limit.toNat 0
              (sieveInit limit.toNat)).getD i true
          · rw [hbt] at htr
            rw [hb] at hsv
            exact absurd (htr.mp rfl) (fun hp => by simpa using hsv.mpr hp)
          · rfl
      rw [hfeq]
  · intro hlt
    unfold prime_count prime_count_optimized
    rw [if_pos hlt, if_pos hlt]
    exact ⟨rfl, rfl⟩

/-- Witness for C2 at `limit = 100`, plus the `limit < 2` clause at
`limit = 1`. -/
theorem prime_count_eq_optimized_witness :
    prime_count 100 = prime_count_optimized 100 ∧
      prime_count 1 = 0 ∧ prime_count_optimized 1 = 0 :=
  ⟨(prime_count_eq_optimized 100 (by norm_num) (by norm_num)).1,
    (prime_count_eq_optimized 1 (by norm_num) (by norm_num)).2 (by norm_num)⟩

end CppFunctions
